import Mathlib

/-!
Verification of the YT-2-Stems pipeline worker (`src/yt2stems.py`).

The development shallowly embeds the pure logic of the worker:
  * `sanitize_filename` (yt2stems.py lines 43-51) over `List Char`;
  * the `(\d{1,3})%` progress-scraping search of `StemWorker._run_subprocess`
    (lines 78-92), including the leftmost-match-with-backtracking semantics of
    `re.search`;
  * `StemWorker.run` (lines 107-206) as a trace-producing function from a
    `Job` and an `Env` (an oracle fixing the outcome of every external
    effect: downloads, subprocess exit codes and diagnostic streams,
    filesystem checks) to the ordered list of emitted Qt-signal events
    (`log` / `prog` / `done`) plus the temp-file cleanup bookkeeping.

Python `str` values are modelled as Lean `String`s (sequences of code
points); digits and whitespace in the regular expressions are modelled over
their ASCII ranges.
-/

namespace YT2Stems

/-! ## Characters and the sanitizer (yt2stems.py lines 43-51) -/

/-- The characters replaced by `re.sub(r'[<>:"/\\|?*]', '_', name)`. -/
def badChar (c : Char) : Bool :=
  c == '<' || c == '>' || c == ':' || c == '"' || c == '/' ||
  c == '\\' || c == '|' || c == '?' || c == '*'

/-- Model of Python's `\s` (ASCII whitespace range). -/
def pySpace (c : Char) : Bool :=
  c == ' ' || c == '\t' || c == '\n' || c == '\r' || c == '\x0b' || c == '\x0c'

/-- Characters collapsed by `re.sub(r'[\s_]+', '_', sanitized)`. -/
def collapseChar (c : Char) : Bool := pySpace c || c == '_'

/-- Characters stripped from both ends by `.strip('_ ')`. -/
def stripChar (c : Char) : Bool := c == '_' || c == ' '

/-- First substitution: every problematic character becomes `'_'`. -/
def replaceBad (s : List Char) : List Char :=
  s.map (fun c => if badChar c then '_' else c)

/-- Second substitution: each maximal run of whitespace/underscore characters
becomes a single `'_'`. The flag records whether the previous character was
part of such a run. -/
def collapseAux : Bool → List Char → List Char
  | _, [] => []
  | prev, c :: cs =>
    if collapseChar c then
      if prev then collapseAux true cs else '_' :: collapseAux true cs
    else c :: collapseAux false cs

/-- `re.sub(r'[\s_]+', '_', s)`. -/
def collapseRuns (s : List Char) : List Char := collapseAux false s

/-- `.strip('_ ')`: drop strip-characters from both ends. -/
def stripEnds (s : List Char) : List Char :=
  ((s.dropWhile stripChar).reverse.dropWhile stripChar).reverse

/-- `sanitize_filename` over a list of code points. -/
def sanitizeL (s : List Char) : List Char :=
  stripEnds (collapseRuns (replaceBad s))

/-- `sanitize_filename` (yt2stems.py lines 43-51). -/
def sanitize_filename (s : String) : String := String.mk (sanitizeL s.data)

/-- Python `str.strip()` with no argument: strip whitespace from both ends. -/
def pyStrip (s : List Char) : List Char :=
  ((s.dropWhile pySpace).reverse.dropWhile pySpace).reverse

/-! ## The percent pattern `(\d{1,3})%` and `re.search` (line 78, 89-91) -/

/-- Numeric value of a (short) digit string, as Python `int(...)`. -/
def digitsToNat (ds : List Char) : Nat :=
  ds.foldl (fun n c => 10 * n + (c.toNat - '0'.toNat)) 0

/-- Try to match exactly `k` digits followed by `'%'` at the head of `cs`,
returning the scraped integer. -/
def tryLen (cs : List Char) (k : Nat) : Option Nat :=
  let pre := cs.take k
  if pre.length == k && pre.all Char.isDigit && (cs.drop k).head? == some '%' then
    some (digitsToNat pre)
  else none

/-- Match `\d{1,3}%` anchored at the head of `cs`: the quantifier is greedy,
so three digits are tried first, backtracking to two and then one. -/
def matchPctAt (cs : List Char) : Option Nat :=
  (tryLen cs 3).orElse fun _ => (tryLen cs 2).orElse fun _ => tryLen cs 1

/-- `re.search` of `(\d{1,3})%`: leftmost match wins. Returns Python
`int(m.group(1))` of the first match, if any. -/
def searchPct : List Char → Option Nat
  | [] => none
  | c :: cs => (matchPctAt (c :: cs)).orElse fun _ => searchPct cs

/-! ## Events and external-effect oracle -/

/-- One event emitted by the worker: the Qt signals `log` (textual logging),
`prog` (0-100 progress int) and `done` (terminal message). The Boolean on
`done` records which emission site fired: `true` for the success emission at
line 195, `false` for the `except` handler at line 198. -/
inductive Event where
  | log (msg : String)
  | prog (n : Nat)
  | done (success : Bool) (msg : String)
deriving DecidableEq

/-- Captured behaviour of one external command: the lines read from its two
diagnostic streams (as Python delivers them, newline included) and its exit
code (`proc.returncode`). -/
structure SubprocResult where
  stderrLines : List String
  stdoutLines : List String
  exitCode : Int
deriving DecidableEq

/-- Events produced while `_run_subprocess` consumes one stderr line
(lines 82-92): a log of the stripped line when non-empty, then, when the
progress span is non-zero and the percent pattern matches, a progress event
`offset + pct * span // 100`. -/
def lineEvents (offset span : Nat) (line : String) : List Event :=
  (if pyStrip line.data ≠ [] then
      [Event.log ("  → " ++ String.mk (pyStrip line.data))]
    else []) ++
  (if span ≠ 0 then
      match searchPct line.data with
      | some pct => [Event.prog (offset + pct * span / 100)]
      | none => []
    else [])

/-- All events produced by the stderr-scraping loop of `_run_subprocess`. -/
def subprocessEvents (offset span : Nat) (r : SubprocResult) : List Event :=
  r.stderrLines.flatMap (lineEvents offset span)

/-- The `RuntimeError` message raised on nonzero exit (lines 101-105). -/
def commandFailedMsg (r : SubprocResult) : String :=
  let errorOutput := String.join r.stderrLines
  let stdoutOutput := String.join r.stdoutLines
  let fullOutput :=
    if stdoutOutput ≠ "" then
      "STDERR:\n" ++ errorOutput ++ "\nSTDOUT:\n" ++ stdoutOutput
    else errorOutput
  "Command failed (exit " ++ toString r.exitCode ++ "):\n" ++ fullOutput

/-! ## Jobs -/

/-- The bitrates offered by the GUI combo box (line 235). -/
inductive Bitrate where
  | b96 | b128 | b192 | b320
deriving DecidableEq

def Bitrate.toStr : Bitrate → String
  | .b96 => "96" | .b128 => "128" | .b192 => "192" | .b320 => "320"

/-- The model identifiers offered by `MODEL_OPTIONS` (lines 212-218). -/
inductive DemucsModel where
  | htdemucs | htdemucs_ft | htdemucs_6s | mdx | mdx_extra_q
deriving DecidableEq

def DemucsModel.toStr : DemucsModel → String
  | .htdemucs => "htdemucs"
  | .htdemucs_ft => "htdemucs_ft"
  | .htdemucs_6s => "htdemucs_6s"
  | .mdx => "mdx"
  | .mdx_extra_q => "mdx_extra_q"

/-- The parameters of one `StemWorker` (lines 60-67). -/
structure Job where
  url : String
  bitrate : Bitrate
  model : DemucsModel
  twoStem : Bool
  outdir : String
  isFile : Bool
deriving DecidableEq

/-! ## Paths

Paths are modelled as their (normalized) string representation; joining with
`/` mirrors `pathlib`'s `dir / name`. -/

def pathJoin (d name : String) : String := d ++ "/" ++ name

/-- `Path(p).name`: the part after the last `'/'`. -/
def pathNameL (p : List Char) : List Char :=
  ((p.reverse.takeWhile (fun c => c ≠ '/')).reverse)

def pathName (p : String) : String := String.mk (pathNameL p.data)

/-- Index of the last `'.'` in a file name, if any. -/
def lastDotIdx (name : List Char) : Option Nat :=
  let tailLen := (name.reverse.takeWhile (fun c => c ≠ '.')).length
  if tailLen = name.length then none else some (name.length - tailLen - 1)

/-- `PurePath.stem`: the file name without its suffix. The suffix is the part
from the last dot on, provided that dot is neither leading nor trailing. -/
def pathStem (name : List Char) : List Char :=
  match lastDotIdx name with
  | some i => if 0 < i ∧ i < name.length - 1 then name.take i else name
  | none => name

/-- `PurePath.suffix`: the extension of the file name, with its dot. -/
def pathSuffix (name : List Char) : List Char :=
  match lastDotIdx name with
  | some i => if 0 < i ∧ i < name.length - 1 then name.drop i else []
  | none => []

/-! ## The worker run (`StemWorker.run`, lines 107-206) -/

/-- Oracle fixing the outcome of every external effect of one run. Message
fields hold Python `str(e)` of the corresponding raised exception. -/
structure Env where
  /-- `tempfile.gettempdir()`. -/
  tmpDir : String
  /-- whether `shutil.copy2` at line 121 raises. -/
  copyFails : Bool
  copyErrMsg : String
  /-- whether the `yt_dlp` download (lines 133-136) raises. -/
  downloadFails : Bool
  downloadErrMsg : String
  /-- file name (inside `tmpDir`) of the download per the output template. -/
  downloadName : String
  /-- whether `analyze_bpm_key` at line 141 raises. -/
  analyzeFails : Bool
  analyzeErrMsg : String
  bpm : Int
  key : String
  /-- outcome of the ffmpeg invocation (line 155). -/
  ffmpeg : SubprocResult
  /-- outcome of the demucs-runner invocation (line 170). -/
  demucs : SubprocResult
  /-- `stems_source.exists()` at line 178. -/
  stemsSourceExists : Bool
  /-- file names listed by `stems_source.iterdir()` at line 180. -/
  stemFileNames : List String
  /-- whether `shutil.copy2` at line 192 raises. -/
  finalCopyFails : Bool
  finalCopyErrMsg : String
  /-- `f.exists()` during cleanup (line 203), per path. -/
  fileExists : String → Bool
  /-- whether `f.unlink()` during cleanup (line 204) raises, per path. -/
  unlinkFails : String → Bool

/-- The terminal failure message emitted by the `except` handler (line 198). -/
def failMsg (m : String) : String := "❌  Error: " ++ m

/-- State after the acquisition step: events emitted so far, temp files
registered so far, and the sanitized title. -/
structure MidState where
  events : List Event
  cleanup : List String
  title : String

/-- Result of the `try` block: the events emitted and the value of
`files_to_cleanup` when the `finally` block runs. -/
structure TryOut where
  events : List Event
  cleanup : List String

/-- Stages 🔍 (analysis) through 4️⃣ (relocation) of `StemWorker.run`
(lines 140-195), plus the `except` handler for any step that raises. -/
def pipelineRest (j : Job) (env : Env) (st : MidState) : TryOut :=
  if env.analyzeFails then
    ⟨st.events ++ [Event.done false (failMsg env.analyzeErrMsg)], st.cleanup⟩
  else
    let ev2 := st.events ++
      [Event.log ("🎚️  Detected tempo: " ++ toString env.bpm ++ " BPM"),
       Event.log ("🔑  Estimated key: " ++ env.key)]
    let mp3Filename := st.title ++ "_" ++ j.bitrate.toStr ++ "k.mp3"
    let mp3Temp := pathJoin env.tmpDir mp3Filename
    let cl2 := st.cleanup ++ [mp3Temp]
    let ev3 := ev2 ++ [Event.log "🔄  Transcoding to MP3 …"] ++
      subprocessEvents 0 0 env.ffmpeg
    if env.ffmpeg.exitCode ≠ 0 then
      ⟨ev3 ++ [Event.done false (failMsg (commandFailedMsg env.ffmpeg))], cl2⟩
    else
      let ev4 := ev3 ++
        [Event.prog 40,
         Event.log ("🎛️  Splitting with Demucs (" ++ j.model.toStr ++ ") …")] ++
        subprocessEvents 40 50 env.demucs
      if env.demucs.exitCode ≠ 0 then
        ⟨ev4 ++ [Event.done false (failMsg (commandFailedMsg env.demucs))], cl2⟩
      else
        let stemsSource := pathJoin (pathJoin (pathJoin env.tmpDir "demucs_output")
          j.model.toStr) (String.mk (pathStem mp3Filename.data))
        let stemsDest := pathJoin (pathJoin j.outdir j.model.toStr) st.title
        let ev5 := ev4 ++
          [Event.prog 90, Event.log "📦  Moving stems to output folder …"] ++
          (if env.stemsSourceExists then
              env.stemFileNames.map (fun n => Event.log ("  → " ++ n))
            else
              [Event.log ("⚠️  Warning: Expected stems folder not found at " ++
                stemsSource)])
        if env.finalCopyFails then
          ⟨ev5 ++ [Event.done false (failMsg env.finalCopyErrMsg)], cl2⟩
        else
          ⟨ev5 ++ [Event.prog 100,
            Event.done true ("✅  Finished – stems ready in " ++ stemsDest)], cl2⟩

/-- The `try` block of `StemWorker.run` (lines 111-198): acquisition
(local-file copy or download), then the rest of the pipeline. -/
def tryBlock (j : Job) (env : Env) : TryOut :=
  if j.isFile then
    let sourceName := pathName j.url
    let title := String.mk (sanitizeL (pathStem sourceName.data))
    let ev0 := [Event.log ("📁  Using local file: " ++ sourceName)]
    let tmpPath := pathJoin env.tmpDir (title ++ String.mk (pathSuffix sourceName.data))
    if j.url ≠ tmpPath then
      if env.copyFails then
        ⟨ev0 ++ [Event.done false (failMsg env.copyErrMsg)], []⟩
      else
        pipelineRest j env ⟨ev0 ++ [Event.prog 10], [tmpPath], title⟩
    else
      pipelineRest j env ⟨ev0 ++ [Event.prog 10], [], title⟩
  else
    let ev0 := [Event.log "⬇  Fetching & downloading audio …", Event.prog 0]
    if env.downloadFails then
      ⟨ev0 ++ [Event.done false (failMsg env.downloadErrMsg)], []⟩
    else
      let tmpPath := pathJoin env.tmpDir env.downloadName
      let title := String.mk (sanitizeL (pathStem env.downloadName.data))
      pipelineRest j env ⟨ev0 ++ [Event.prog 10], [tmpPath], title⟩

/-- The `finally` block (lines 199-206): attempt to delete every registered
temp file; `exists`/`unlink` outcomes are recorded but every error is
swallowed. The Boolean records whether the file was actually unlinked. -/
def sweep (env : Env) (files : List String) : List (String × Bool) :=
  files.map (fun f => (f, env.fileExists f && !env.unlinkFails f))

/-- Full observable outcome of one `StemWorker.run`: the emitted event
sequence, the cleanup registry at finalization time, and the finalization's
per-file deletion record. -/
structure RunOutcome where
  events : List Event
  cleanupList : List String
  swept : List (String × Bool)

/-- `StemWorker.run` (lines 107-206). -/
def runJob (j : Job) (env : Env) : RunOutcome :=
  let t := tryBlock j env
  ⟨t.events, t.cleanup, sweep env t.cleanup⟩

/-- The percent values carried by the progress events of a trace, in order. -/
def progressValues (evs : List Event) : List Nat :=
  evs.filterMap fun e =>
    match e with
    | .prog n => some n
    | _ => none

/-- Number of terminal `done` events in a trace. -/
def doneCount (evs : List Event) : Nat :=
  (evs.filter fun e =>
    match e with
    | .done _ _ => true
    | _ => false).length

/-! ## Normal form of sanitized strings -/

/-- Adjacency invariant of the collapsed string: no two neighbouring
characters are both collapsible. -/
def NoRun (a b : Char) : Prop := ¬(collapseChar a = true ∧ collapseChar b = true)

theorem noRun_symm {a b : Char} (h : NoRun a b) : NoRun b a := by
  intro ⟨h1, h2⟩; exact h ⟨h2, h1⟩

theorem mem_replaceBad {s : List Char} {c : Char} (h : c ∈ replaceBad s) :
    badChar c = false := by
  rcases List.mem_map.mp h with ⟨a, _, ha⟩
  by_cases hb : badChar a = true
  · simp [hb] at ha; subst ha; decide
  · simp [hb] at ha ⊢; subst ha; simpa using hb

theorem mem_collapseAux {s : List Char} {b : Bool} {c : Char}
    (h : c ∈ collapseAux b s) : c = '_' ∨ (collapseChar c = false ∧ c ∈ s) := by
  induction s generalizing b with
  | nil => simp [collapseAux] at h
  | cons d ds ih =>
    by_cases hd : collapseChar d = true
    · simp only [collapseAux, hd, if_pos] at h
      rcases b with _ | _
      · simp at h
        rcases h with h | h
        · exact Or.inl h
        · rcases ih h with h' | ⟨h1, h2⟩
          · exact Or.inl h'
          · exact Or.inr ⟨h1, List.mem_cons_of_mem _ h2⟩
      · simp at h
        rcases ih h with h' | ⟨h1, h2⟩
        · exact Or.inl h'
        · exact Or.inr ⟨h1, List.mem_cons_of_mem _ h2⟩
    · simp only [collapseAux, hd, if_neg, Bool.not_eq_true] at h
      simp at h
      rcases h with h | h
      · subst h
        exact Or.inr ⟨by simpa using hd, List.mem_cons_self _ _⟩
      · rcases ih h with h' | ⟨h1, h2⟩
        · exact Or.inl h'
        · exact Or.inr ⟨h1, List.mem_cons_of_mem _ h2⟩

theorem head?_collapseAux_true {s : List Char} {c : Char}
    (h : (collapseAux true s).head? = some c) : collapseChar c = false := by
  induction s with
  | nil => simp [collapseAux] at h
  | cons d ds ih =>
    by_cases hd : collapseChar d = true
    · simp only [collapseAux, hd, if_pos, if_true] at h
      exact ih h
    · simp only [collapseAux, hd, if_neg, Bool.not_eq_true] at h
      simp at h
      rw [← h]; simpa using hd

theorem chain'_collapseAux (b : Bool) (s : List Char) :
    List.Chain' NoRun (collapseAux b s) := by
  induction s generalizing b with
  | nil => simp [collapseAux]
  | cons d ds ih =>
    by_cases hd : collapseChar d = true
    · simp only [collapseAux, hd, if_pos]
      rcases b with _ | _
      · simp only [Bool.false_eq_true, if_false]
        rw [List.chain'_cons']
        refine ⟨fun y hy => ?_, ih true⟩
        intro ⟨_, hy2⟩
        rw [head?_collapseAux_true hy] at hy2
        exact absurd hy2 (by simp)
      · simpa using ih true
    · simp only [collapseAux, if_neg hd]
      rw [List.chain'_cons']
      exact ⟨fun y _ => fun ⟨h1, _⟩ => absurd h1 (by simpa using hd), ih false⟩

theorem collapseAux_true_of_head {s : List Char}
    (h : ∀ c ∈ s.head?, collapseChar c = false) :
    collapseAux true s = collapseAux false s := by
  cases s with
  | nil => rfl
  | cons d ds =>
    have hd : collapseChar d = false := h d (by simp)
    simp [collapseAux, hd]

theorem collapseAux_fixed {s : List Char}
    (h1 : ∀ c ∈ s, collapseChar c = true → c = '_')
    (h2 : List.Chain' NoRun s) : collapseAux false s = s := by
  induction s with
  | nil => rfl
  | cons d ds ih =>
    rw [List.chain'_cons'] at h2
    by_cases hd : collapseChar d = true
    · have hdu : d = '_' := h1 d (List.mem_cons_self _ _) hd
      simp only [collapseAux, hd, if_pos, Bool.false_eq_true, if_false]
      have hhead : ∀ c ∈ ds.head?, collapseChar c = false := by
        intro c hc
        by_contra hcc
        exact h2.1 c hc ⟨hd, by simpa using hcc⟩
      rw [collapseAux_true_of_head hhead, hdu,
        ih (fun c hc => h1 c (List.mem_cons_of_mem _ hc)) h2.2]
    · simp only [collapseAux, if_neg hd]
      rw [ih (fun c hc => h1 c (List.mem_cons_of_mem _ hc)) h2.2]

theorem head?_dropWhile {p : Char → Bool} {l : List Char} {c : Char}
    (h : (l.dropWhile p).head? = some c) : p c = false := by
  induction l with
  | nil => simp [List.dropWhile] at h
  | cons d ds ih =>
    by_cases hd : p d = true
    · rw [List.dropWhile_cons_of_pos hd] at h
      exact ih h
    · rw [List.dropWhile_cons_of_neg hd] at h
      simp at h
      rw [← h]; simpa using hd

theorem dropWhile_eq_self_of_head {p : Char → Bool} {l : List Char}
    (h : ∀ c ∈ l.head?, p c = false) : l.dropWhile p = l := by
  cases l with
  | nil => rfl
  | cons d ds =>
    have hd : p d = false := h d (by simp)
    rw [List.dropWhile_cons_of_neg (by simp [hd])]

theorem mem_stripEnds {s : List Char} {c : Char} (h : c ∈ stripEnds s) : c ∈ s := by
  unfold stripEnds at h
  rw [List.mem_reverse] at h
  have h2 := (List.dropWhile_suffix stripChar).subset h
  rw [List.mem_reverse] at h2
  exact (List.dropWhile_suffix stripChar).subset h2

theorem chain'_stripEnds {R : Char → Char → Prop} {s : List Char}
    (h : List.Chain' R s) : List.Chain' R (stripEnds s) := by
  unfold stripEnds
  rw [List.chain'_reverse]
  have h1 : List.Chain' R (s.dropWhile stripChar) :=
    h.suffix (List.dropWhile_suffix stripChar)
  have h2 : List.Chain' (flip R) (s.dropWhile stripChar).reverse := by
    rw [List.chain'_reverse]
    exact h1.imp (fun a b hab => hab)
  exact h2.suffix (List.dropWhile_suffix stripChar)

theorem head?_stripEnds {s : List Char} {c : Char}
    (h : (stripEnds s).head? = some c) : stripChar c = false := by
  unfold stripEnds at h
  rw [List.head?_reverse] at h
  rcases (List.dropWhile_suffix stripChar
    (l := (List.dropWhile stripChar s).reverse)) with ⟨t, ht⟩
  have hne : List.dropWhile stripChar (List.dropWhile stripChar s).reverse ≠ [] := by
    intro hnil; rw [hnil] at h; simp at h
  have h2 : ((List.dropWhile stripChar s).reverse).getLast? = some c := by
    rw [← ht, List.getLast?_append_of_ne_nil _ hne]; exact h
  rw [List.getLast?_reverse] at h2
  exact head?_dropWhile h2

theorem getLast?_stripEnds {s : List Char} {c : Char}
    (h : (stripEnds s).getLast? = some c) : stripChar c = false := by
  unfold stripEnds at h
  rw [List.getLast?_reverse] at h
  exact head?_dropWhile h

/-- The normal form enjoyed by every output of `sanitize_filename`: no
problematic character survives, the only collapsible character is a lone
underscore, underscores are never adjacent, and the ends carry no
strippable character. -/
structure SanNormal (s : List Char) : Prop where
  noBad : ∀ c ∈ s, badChar c = false
  onlyUnderscore : ∀ c ∈ s, collapseChar c = true → c = '_'
  chain : List.Chain' NoRun s
  headOk : ∀ c ∈ s.head?, stripChar c = false
  lastOk : ∀ c ∈ s.getLast?, stripChar c = false

theorem sanitizeL_normal (s : List Char) : SanNormal (sanitizeL s) := by
  refine ⟨?_, ?_, ?_, ?_, ?_⟩
  · intro c hc
    rcases mem_collapseAux (mem_stripEnds hc) with h | ⟨_, h⟩
    · subst h; decide
    · exact mem_replaceBad h
  · intro c hc _
    rcases mem_collapseAux (mem_stripEnds hc) with h | ⟨h1, _⟩
    · exact h
    · simp_all
  · exact chain'_stripEnds (chain'_collapseAux false _)
  · intro c hc; exact head?_stripEnds hc
  · intro c hc; exact getLast?_stripEnds hc

theorem sanitizeL_fixed {s : List Char} (h : SanNormal s) : sanitizeL s = s := by
  have hrb : replaceBad s = s := by
    unfold replaceBad
    rw [List.map_congr_left (g := id) (fun a ha => by simp [h.noBad a ha]),
      List.map_id]
  have hcr : collapseRuns s = s := collapseAux_fixed h.onlyUnderscore h.chain
  have hse : stripEnds s = s := by
    unfold stripEnds
    rw [dropWhile_eq_self_of_head h.headOk]
    rw [dropWhile_eq_self_of_head (by
      intro c hc
      rw [List.head?_reverse] at hc
      exact h.lastOk c hc)]
    exact List.reverse_reverse s
  unfold sanitizeL
  rw [hrb, hcr, hse]

/-! ## C4: idempotence of the sanitizer -/

/-- C4. The filename sanitization function is idempotent: for every string
`s`, `sanitize_filename (sanitize_filename s) = sanitize_filename s`. -/
theorem sanitize_filename_idempotent (s : String) :
    sanitize_filename (sanitize_filename s) = sanitize_filename s := by
  unfold sanitize_filename
  exact congrArg String.mk (sanitizeL_fixed (sanitizeL_normal s.data))

/-! ## Shape of the events produced by the stderr-scraping loop -/

theorem mem_lineEvents {o s : Nat} {l : String} {e : Event}
    (h : e ∈ lineEvents o s l) :
    (∃ m, e = Event.log ("  → " ++ m)) ∨ (∃ n, e = Event.prog n) := by
  unfold lineEvents at h
  rw [List.mem_append] at h
  rcases h with h | h
  · split at h
    · simp at h; exact Or.inl ⟨_, h⟩
    · simp at h
  · split at h
    · split at h
      · simp at h; exact Or.inr ⟨_, h⟩
      · simp at h
    · simp at h

theorem mem_subprocessEvents {o s : Nat} {r : SubprocResult} {e : Event}
    (h : e ∈ subprocessEvents o s r) :
    (∃ m, e = Event.log ("  → " ++ m)) ∨ (∃ n, e = Event.prog n) := by
  unfold subprocessEvents at h
  rcases List.mem_flatMap.mp h with ⟨l, _, hl⟩
  exact mem_lineEvents hl

/-! ## C5: the progress-window mapping -/

/-- C5. For every line of the primary diagnostic stream matching the
percentage pattern with value `pct`, and every progress window with nonzero
span, the runner emits a Progress event of `offset + pct * span / 100`
(integer division, as in the source's `//`). The spec's instance — offset
40, span 50, scraped 50 ↦ 65 — is checked by the witness. -/
theorem progress_window_mapping (offset span : Nat) (r : SubprocResult)
    (line : String) (pct : Nat) (hline : line ∈ r.stderrLines)
    (hspan : span ≠ 0) (hm : searchPct line.data = some pct) :
    Event.prog (offset + pct * span / 100) ∈ subprocessEvents offset span r := by
  unfold subprocessEvents
  rw [List.mem_flatMap]
  refine ⟨line, hline, ?_⟩
  unfold lineEvents
  rw [List.mem_append, hm]
  right
  simp [hspan]

/-- Witness for C5 at the spec's own numbers: a stream containing `50%`
under window (40, 50) yields progress 65. -/
theorem progress_window_mapping_witness :
    Event.prog 65 ∈ subprocessEvents 40 50 ⟨["50%\n"], [], 0⟩ := by
  have h := progress_window_mapping 40 50 ⟨["50%\n"], [], 0⟩ "50%\n" 50
    (by simp) (by decide) (by decide)
  exact (by decide : (40 + 50 * 50 / 100 : Nat) = 65) ▸ h

/-! ## C1: successful jobs end Progress(100) · Done(success) -/

/-- C1. For every job (any valid bitrate, any valid model identifier, local
file or URL) whose external steps all succeed, the emitted event sequence
ends with Progress(100) immediately followed by the success Done event, with
no event between them and none after. -/
theorem success_ends_prog100_done (j : Job) (env : Env)
    (h1 : env.copyFails = false) (h2 : env.downloadFails = false)
    (h3 : env.analyzeFails = false) (h4 : env.ffmpeg.exitCode = 0)
    (h5 : env.demucs.exitCode = 0) (h6 : env.finalCopyFails = false) :
    ∃ pre msg,
      (runJob j env).events = pre ++ [Event.prog 100, Event.done true msg] := by
  unfold runJob tryBlock pipelineRest
  simp only [h1, h2, h3, h4, h5, h6, ne_eq, not_true_eq_false, Bool.false_eq_true,
    if_false, ite_not, not_false_eq_true, if_true]
  split
  · split
    · exact ⟨_, _, rfl⟩
    · split
      · exact ⟨_, _, rfl⟩
      · exact ⟨_, _, rfl⟩
  · exact ⟨_, _, rfl⟩

/-- A fully concrete successful job exercising C1. -/
def jobW : Job :=
  ⟨"/music/My Song.mp3", Bitrate.b320, DemucsModel.htdemucs, false, "/out", true⟩

/-- A fully successful environment for `jobW`. -/
def envW : Env where
  tmpDir := "/tmp"
  copyFails := false
  copyErrMsg := ""
  downloadFails := false
  downloadErrMsg := ""
  downloadName := ""
  analyzeFails := false
  analyzeErrMsg := ""
  bpm := 120
  key := "C major"
  ffmpeg := ⟨["size=  100kB\n"], [], 0⟩
  demucs := ⟨["  0%|\n", " 50%|\n", "100%|\n"], [], 0⟩
  stemsSourceExists := true
  stemFileNames := ["vocals.wav", "drums.wav", "bass.wav", "other.wav"]
  finalCopyFails := false
  finalCopyErrMsg := ""
  fileExists := fun _ => true
  unlinkFails := fun _ => false

/-- Witness for C1 at a concrete successful job. -/
theorem success_ends_prog100_done_witness :
    ∃ pre msg,
      (runJob jobW envW).events = pre ++ [Event.prog 100, Event.done true msg] :=
  success_ends_prog100_done jobW envW rfl rfl rfl rfl rfl rfl

/-! ## Counting terminal events -/

theorem doneCount_append (a b : List Event) :
    doneCount (a ++ b) = doneCount a + doneCount b := by
  simp [doneCount, List.filter_append]

theorem doneCount_nil : doneCount [] = 0 := rfl

theorem doneCount_cons_log (m : String) (l : List Event) :
    doneCount (Event.log m :: l) = doneCount l := by
  simp [doneCount]

theorem doneCount_cons_prog (n : Nat) (l : List Event) :
    doneCount (Event.prog n :: l) = doneCount l := by
  simp [doneCount]

theorem doneCount_cons_done (b : Bool) (m : String) (l : List Event) :
    doneCount (Event.done b m :: l) = doneCount l + 1 := by
  simp [doneCount, List.filter_cons]

theorem doneCount_eq_zero {evs : List Event}
    (h : ∀ e ∈ evs, ∀ b m, e ≠ Event.done b m) : doneCount evs = 0 := by
  unfold doneCount
  rw [List.length_eq_zero, List.filter_eq_nil_iff]
  intro a ha
  cases a with
  | log m => simp
  | prog n => simp
  | done b m => exact absurd rfl (h _ ha b m)

theorem doneCount_subprocessEvents (o s : Nat) (r : SubprocResult) :
    doneCount (subprocessEvents o s r) = 0 :=
  doneCount_eq_zero fun e he b m => by
    rcases mem_subprocessEvents he with ⟨x, rfl⟩ | ⟨x, rfl⟩ <;> simp

theorem doneCount_logMap (xs : List String) :
    doneCount (xs.map fun n => Event.log ("  → " ++ n)) = 0 :=
  doneCount_eq_zero fun e he b m => by
    rcases List.mem_map.mp he with ⟨x, _, rfl⟩; simp

theorem doneCount_pipelineRest (j : Job) (env : Env) (st : MidState)
    (h : doneCount st.events = 0) :
    doneCount (pipelineRest j env st).events = 1 := by
  unfold pipelineRest
  split
  · simp [doneCount_append, h, doneCount_cons_log, doneCount_cons_prog,
      doneCount_cons_done, doneCount_nil]
  · split
    · simp [doneCount_append, h, doneCount_cons_log, doneCount_cons_prog,
        doneCount_cons_done, doneCount_nil, doneCount_subprocessEvents]
    · split
      · simp [doneCount_append, h, doneCount_cons_log, doneCount_cons_prog,
          doneCount_cons_done, doneCount_nil, doneCount_subprocessEvents]
      · split
        · split
          · simp [doneCount_append, h, doneCount_cons_log, doneCount_cons_prog,
              doneCount_cons_done, doneCount_nil, doneCount_subprocessEvents,
              doneCount_logMap]
          · simp [doneCount_append, h, doneCount_cons_log, doneCount_cons_prog,
              doneCount_cons_done, doneCount_nil, doneCount_subprocessEvents,
              doneCount_logMap]
        · split
          · simp [doneCount_append, h, doneCount_cons_log, doneCount_cons_prog,
              doneCount_cons_done, doneCount_nil, doneCount_subprocessEvents,
              doneCount_logMap]
          · simp [doneCount_append, h, doneCount_cons_log, doneCount_cons_prog,
              doneCount_cons_done, doneCount_nil, doneCount_subprocessEvents,
              doneCount_logMap]

theorem doneCount_tryBlock (j : Job) (env : Env) :
    doneCount (tryBlock j env).events = 1 := by
  simp only [tryBlock]
  split
  · split
    · split
      · simp [doneCount_cons_log, doneCount_cons_done, doneCount_nil]
      · exact doneCount_pipelineRest _ _ _
          (by simp [doneCount_cons_log, doneCount_cons_prog, doneCount_nil])
    · exact doneCount_pipelineRest _ _ _
        (by simp [doneCount_cons_log, doneCount_cons_prog, doneCount_nil])
  · split
    · simp [doneCount_cons_log, doneCount_cons_prog, doneCount_cons_done,
        doneCount_nil]
    · exact doneCount_pipelineRest _ _ _
        (by simp [doneCount_cons_log, doneCount_cons_prog, doneCount_nil])

theorem doneCount_runJob (j : Job) (env : Env) :
    doneCount (runJob j env).events = 1 :=
  doneCount_tryBlock j env

/-! ## C9: finalization -/

/-- C9. On every run — success or failure raised at any stage — the
finalization sweep runs over exactly the registered temp-file list (it
attempts every entry), exactly one terminal Done event is emitted, and the
outcome of the deletion attempts (`exists`/`unlink` behaviour, errors
swallowed) influences neither the event sequence nor the registry. -/
theorem finalization_exact (j : Job) (env : Env) :
    ((runJob j env).swept.map Prod.fst = (runJob j env).cleanupList) ∧
    doneCount (runJob j env).events = 1 ∧
    (∀ fe uf,
      (runJob j { env with fileExists := fe, unlinkFails := uf }).events =
        (runJob j env).events) ∧
    (∀ fe uf,
      (runJob j { env with fileExists := fe, unlinkFails := uf }).cleanupList =
        (runJob j env).cleanupList) := by
  refine ⟨?_, doneCount_runJob j env, fun fe uf => rfl, fun fe uf => rfl⟩
  show (sweep env (tryBlock j env).cleanup).map Prod.fst = (tryBlock j env).cleanup
  unfold sweep
  rw [List.map_map]
  exact List.map_id' _

/-! ## C6: nonzero exit of the separation tool -/

theorem data_contains_append {x : List Char} {m : String} (pre : String)
    (h : ∃ l t, m.data = l ++ x ++ t) : ∃ l t, (pre ++ m).data = l ++ x ++ t := by
  rcases h with ⟨l, t, hm⟩
  exact ⟨pre.data ++ l, t, by rw [String.data_append, hm]; simp [List.append_assoc]⟩

theorem commandFailedMsg_contains_exitCode (r : SubprocResult) :
    ∃ l t, (commandFailedMsg r).data = l ++ (toString r.exitCode).data ++ t := by
  by_cases hs : String.join r.stdoutLines = ""
  · refine ⟨"Command failed (exit ".data,
      ("):\n" ++ String.join r.stderrLines).data, ?_⟩
    simp [commandFailedMsg, hs, String.data_append, List.append_assoc]
  · refine ⟨"Command failed (exit ".data,
      ("):\n" ++ ("STDERR:\n" ++ String.join r.stderrLines ++ "\nSTDOUT:\n" ++
        String.join r.stdoutLines)).data, ?_⟩
    simp [commandFailedMsg, hs, String.data_append, List.append_assoc]

theorem commandFailedMsg_contains_stderr (r : SubprocResult) :
    ∃ l t, (commandFailedMsg r).data =
      l ++ (String.join r.stderrLines).data ++ t := by
  by_cases hs : String.join r.stdoutLines = ""
  · refine ⟨("Command failed (exit " ++ toString r.exitCode ++ "):\n").data,
      [], ?_⟩
    simp [commandFailedMsg, hs, String.data_append, List.append_assoc]
  · refine ⟨("Command failed (exit " ++ toString r.exitCode ++ "):\nSTDERR:\n").data,
      ("\nSTDOUT:\n" ++ String.join r.stdoutLines).data, ?_⟩
    simp [commandFailedMsg, hs, String.data_append, List.append_assoc]

theorem done_true_not_mem_of_last {pre : List Event} {msg : String}
    (hcount : doneCount (pre ++ [Event.done false msg]) = 1) :
    ∀ m, Event.done true m ∉ pre ++ [Event.done false msg] := by
  intro m hm
  rw [List.mem_append] at hm
  rcases hm with hm | hm
  · have h1 : 0 < doneCount pre := by
      unfold doneCount
      refine List.length_pos.mpr (List.ne_nil_of_mem (a := Event.done true m) ?_)
      exact List.mem_filter.mpr ⟨hm, rfl⟩
    rw [doneCount_append, doneCount_cons_done, doneCount_nil] at hcount
    omega
  · simp at hm

/-- The first character of a log event's message (discriminates the
worker's distinct emission sites). -/
def logHead : Event → Option Char
  | .log s => s.data.head?
  | _ => none

theorem moveLog_not_mem_subprocessEvents {o s : Nat} {r : SubprocResult} :
    Event.log "📦  Moving stems to output folder …" ∉ subprocessEvents o s r := by
  intro h
  rcases mem_subprocessEvents h with ⟨m, hm⟩ | ⟨n, hn⟩
  · have h1 : logHead (Event.log ("  → " ++ m)) = some ' ' := rfl
    have h2 : logHead (Event.log "📦  Moving stems to output folder …") =
      some '📦' := rfl
    rw [hm, h1] at h2
    exact absurd h2 (by decide)
  · exact absurd hn (by simp)

theorem str_ne_of_head {a b : String} {c d : Char} (ha : a.data.head? = some c)
    (hb : b.data.head? = some d) (hne : c ≠ d) : a ≠ b := by
  intro he
  rw [he, hb] at ha
  exact hne (Option.some.inj ha).symm

theorem moveLog_ne_tempo (x y : String) :
    "📦  Moving stems to output folder …" ≠ "🎚️  Detected tempo: " ++ x ++ y :=
  str_ne_of_head rfl rfl (by decide)

theorem moveLog_ne_key (x : String) :
    "📦  Moving stems to output folder …" ≠ "🔑  Estimated key: " ++ x :=
  str_ne_of_head rfl rfl (by decide)

theorem moveLog_ne_transcode :
    "📦  Moving stems to output folder …" ≠ "🔄  Transcoding to MP3 …" := by
  decide

theorem moveLog_ne_split (x y : String) :
    "📦  Moving stems to output folder …" ≠
      "🎛️  Splitting with Demucs (" ++ x ++ y :=
  str_ne_of_head rfl rfl (by decide)

theorem moveLog_ne_localfile (x : String) :
    "📦  Moving stems to output folder …" ≠ "📁  Using local file: " ++ x :=
  str_ne_of_head rfl rfl (by decide)

theorem moveLog_ne_fetching :
    "📦  Moving stems to output folder …" ≠ "⬇  Fetching & downloading audio …" := by
  decide

theorem moveLog_not_mem_pipelineRest_demucsFail (j : Job) (env : Env)
    (st : MidState) (hA : env.analyzeFails = false)
    (hF : env.ffmpeg.exitCode = 0) (hD : env.demucs.exitCode ≠ 0)
    (hst : Event.log "📦  Moving stems to output folder …" ∉ st.events) :
    Event.log "📦  Moving stems to output folder …" ∉
      (pipelineRest j env st).events := by
  simp only [pipelineRest, hA, hF, hD, ne_eq, not_true_eq_false,
    Bool.false_eq_true, if_false, not_false_eq_true, if_true]
  intro h
  simp [moveLog_ne_tempo, moveLog_ne_key, moveLog_ne_transcode, moveLog_ne_split,
    moveLog_not_mem_subprocessEvents] at h
  exact hst h

/-! ## C6: nonzero separation-tool exit is a terminal failure -/

/-- C6. When every stage before separation succeeds and the separation tool
exits nonzero, the job's event sequence ends with the failure Done event
(nothing afterward), whose message contains both the tool's exit code and
its captured stderr; no success Done and no Relocating-stage marker event is
ever emitted. -/
theorem demucs_failure_terminal (j : Job) (env : Env)
    (h1 : env.copyFails = false) (h2 : env.downloadFails = false)
    (h3 : env.analyzeFails = false) (h4 : env.ffmpeg.exitCode = 0)
    (h5 : env.demucs.exitCode ≠ 0) :
    (∃ pre, (runJob j env).events =
        pre ++ [Event.done false (failMsg (commandFailedMsg env.demucs))]) ∧
    (∃ l t, (failMsg (commandFailedMsg env.demucs)).data =
        l ++ (toString env.demucs.exitCode).data ++ t) ∧
    (∃ l t, (failMsg (commandFailedMsg env.demucs)).data =
        l ++ (String.join env.demucs.stderrLines).data ++ t) ∧
    (∀ m, Event.done true m ∉ (runJob j env).events) ∧
    Event.log "📦  Moving stems to output folder …" ∉ (runJob j env).events := by
  have hsplit : ∃ pre, (runJob j env).events =
      pre ++ [Event.done false (failMsg (commandFailedMsg env.demucs))] := by
    unfold runJob tryBlock pipelineRest
    simp only [h1, h2, h3, h4, h5, ne_eq, not_true_eq_false, Bool.false_eq_true,
      if_false, not_false_eq_true, if_true]
    split
    · split
      · exact ⟨_, rfl⟩
      · exact ⟨_, rfl⟩
    · exact ⟨_, rfl⟩
  refine ⟨hsplit,
    data_contains_append _ (commandFailedMsg_contains_exitCode env.demucs),
    data_contains_append _ (commandFailedMsg_contains_stderr env.demucs),
    ?_, ?_⟩
  · rcases hsplit with ⟨pre, hpre⟩
    rw [hpre]
    exact done_true_not_mem_of_last (hpre ▸ doneCount_runJob j env)
  · show Event.log "📦  Moving stems to output folder …" ∉ (tryBlock j env).events
    simp only [tryBlock, h1, h2, Bool.false_eq_true, if_false]
    split
    · split
      · exact moveLog_not_mem_pipelineRest_demucsFail j env _ h3 h4 h5
          (by intro h; simp [moveLog_ne_localfile] at h)
      · exact moveLog_not_mem_pipelineRest_demucsFail j env _ h3 h4 h5
          (by intro h; simp [moveLog_ne_localfile] at h)
    · exact moveLog_not_mem_pipelineRest_demucsFail j env _ h3 h4 h5
        (by intro h; simp [moveLog_ne_fetching] at h)

/-- Witness environment for C6: demucs exits 1 with diagnostics. -/
def envD : Env := { envW with
  demucs := ⟨["  7%|+\n", "Traceback: boom\n"], ["partial\n"], 1⟩ }

/-- Witness for C6 at a concrete failing separation. -/
theorem demucs_failure_terminal_witness :
    (∃ pre, (runJob jobW envD).events =
        pre ++ [Event.done false (failMsg (commandFailedMsg envD.demucs))]) ∧
    (∃ l t, (failMsg (commandFailedMsg envD.demucs)).data =
        l ++ (toString envD.demucs.exitCode).data ++ t) ∧
    (∃ l t, (failMsg (commandFailedMsg envD.demucs)).data =
        l ++ (String.join envD.demucs.stderrLines).data ++ t) ∧
    (∀ m, Event.done true m ∉ (runJob jobW envD).events) ∧
    Event.log "📦  Moving stems to output folder …" ∉ (runJob jobW envD).events :=
  demucs_failure_terminal jobW envD rfl rfl rfl rfl (by decide)

/-! ## C7: an analysis failure is pipeline-fatal in the code -/

/-- Environment in which `analyze_bpm_key` raises (unreadable audio) and
every other external step would succeed. -/
def envA : Env := { envW with
  analyzeFails := true
  analyzeErrMsg := "MonoLoader: unreadable audio" }

/-- C7 evaluation. The analysis call at line 141 is unguarded, so its
failure propagates to the `except` handler: the job emits the failure Done
event, the Transcoding stage never runs (its log never appears and progress
never reaches 40), contradicting the spec's requirement that analysis
failure degrade to a warning and never fail the job. -/
theorem analysis_failure_is_fatal :
    (runJob jobW envA).events =
      [Event.log "📁  Using local file: My Song.mp3", Event.prog 10,
       Event.done false (failMsg "MonoLoader: unreadable audio")] ∧
    Event.log "🔄  Transcoding to MP3 …" ∉ (runJob jobW envA).events ∧
    Event.prog 40 ∉ (runJob jobW envA).events ∧
    (∀ b m, Event.done b m ∈ (runJob jobW envA).events → b = false) := by
  refine ⟨by decide, by decide, by decide, ?_⟩
  intro b m hm
  have he : (runJob jobW envA).events =
      [Event.log "📁  Using local file: My Song.mp3", Event.prog 10,
       Event.done false (failMsg "MonoLoader: unreadable audio")] := by decide
  rw [he] at hm
  simp at hm
  exact hm.1

/-! ## C8: missing scratch-output subtree -/

/-- C8. When every external step succeeds but the expected
`scratch_root/model/<basename>` subtree is missing, the Relocating stage
logs the warning and the job still ends with Progress(100) followed by the
success Done event. -/
theorem missing_stems_warns_still_success (j : Job) (env : Env)
    (h1 : env.copyFails = false) (h2 : env.downloadFails = false)
    (h3 : env.analyzeFails = false) (h4 : env.ffmpeg.exitCode = 0)
    (h5 : env.demucs.exitCode = 0) (h6 : env.finalCopyFails = false)
    (h7 : env.stemsSourceExists = false) :
    (∃ m, Event.log ("⚠️  Warning: Expected stems folder not found at " ++ m)
        ∈ (runJob j env).events) ∧
    ∃ pre msg,
      (runJob j env).events = pre ++ [Event.prog 100, Event.done true msg] := by
  unfold runJob tryBlock pipelineRest
  simp only [h1, h2, h3, h4, h5, h6, h7, ne_eq, not_true_eq_false,
    Bool.false_eq_true, if_false, not_false_eq_true, if_true]
  split
  · split
    · exact ⟨⟨_, List.mem_append_left _
        (List.mem_append_right _ (List.mem_cons_self _ _))⟩, _, _, rfl⟩
    · exact ⟨⟨_, List.mem_append_left _
        (List.mem_append_right _ (List.mem_cons_self _ _))⟩, _, _, rfl⟩
  · exact ⟨⟨_, List.mem_append_left _
      (List.mem_append_right _ (List.mem_cons_self _ _))⟩, _, _, rfl⟩

/-- Environment for C8's witness: separation succeeds but its expected
output subtree is absent. -/
def envM : Env := { envW with stemsSourceExists := false }

/-- Witness for C8 at a concrete job. -/
theorem missing_stems_warns_still_success_witness :
    (∃ m, Event.log ("⚠️  Warning: Expected stems folder not found at " ++ m)
        ∈ (runJob jobW envM).events) ∧
    ∃ pre msg,
      (runJob jobW envM).events = pre ++ [Event.prog 100, Event.done true msg] :=
  missing_stems_warns_still_success jobW envM rfl rfl rfl rfl rfl rfl rfl

/-! ## Progress values of a trace -/

/-- The percent values scraped (in order) from a command's stderr stream. -/
def scraped (r : SubprocResult) : List Nat :=
  r.stderrLines.filterMap fun l => searchPct l.data

theorem pv_append (a b : List Event) :
    progressValues (a ++ b) = progressValues a ++ progressValues b := by
  simp [progressValues, List.filterMap_append]

theorem pv_nil : progressValues [] = [] := rfl

theorem pv_cons_log (m : String) (l : List Event) :
    progressValues (Event.log m :: l) = progressValues l := by
  simp [progressValues]

theorem pv_cons_prog (n : Nat) (l : List Event) :
    progressValues (Event.prog n :: l) = n :: progressValues l := by
  simp [progressValues]

theorem pv_cons_done (b : Bool) (m : String) (l : List Event) :
    progressValues (Event.done b m :: l) = progressValues l := by
  simp [progressValues]

theorem pv_logMap (xs : List String) :
    progressValues (xs.map fun n => Event.log ("  → " ++ n)) = [] := by
  induction xs with
  | nil => rfl
  | cons x xs ih => simp [pv_cons_log, ih]

theorem pv_lineEvents_span0 (o : Nat) (l : String) :
    progressValues (lineEvents o 0 l) = [] := by
  unfold lineEvents
  rw [pv_append]
  split <;> simp [progressValues]

theorem pv_subprocess_span0 (o : Nat) (r : SubprocResult) :
    progressValues (subprocessEvents o 0 r) = [] := by
  unfold subprocessEvents
  induction r.stderrLines with
  | nil => rfl
  | cons l ls ih =>
    rw [List.flatMap_cons, pv_append, pv_lineEvents_span0, ih]
    rfl

theorem pv_lineEvents (o s : Nat) (hs : s ≠ 0) (l : String) :
    progressValues (lineEvents o s l) =
      match searchPct l.data with
      | some pct => [o + pct * s / 100]
      | none => [] := by
  unfold lineEvents
  rw [pv_append]
  have h1 : progressValues (if pyStrip l.data ≠ [] then
      [Event.log ("  → " ++ String.mk (pyStrip l.data))] else []) = [] := by
    split <;> simp [progressValues]
  rw [h1, if_pos hs]
  cases hm : searchPct l.data <;> simp [progressValues]

theorem pv_subprocess_window (o s : Nat) (hs : s ≠ 0) (r : SubprocResult) :
    progressValues (subprocessEvents o s r) =
      (scraped r).map fun p => o + p * s / 100 := by
  unfold subprocessEvents scraped
  induction r.stderrLines with
  | nil => rfl
  | cons l ls ih =>
    rw [List.flatMap_cons, pv_append, pv_lineEvents o s hs, List.filterMap_cons, ih]
    cases hm : searchPct l.data <;> simp

/-! ## Chains of non-decreasing progress -/

theorem mem_of_head?_eq {α : Type} {l : List α} {a : α}
    (h : l.head? = some a) : a ∈ l := by
  cases l with
  | nil => simp at h
  | cons b t =>
    simp at h
    rw [← h]
    exact List.mem_cons_self _ _

theorem mem_of_getLast?_eq {α : Type} {l : List α} {a : α}
    (h : l.getLast? = some a) : a ∈ l := by
  rw [← List.head?_reverse] at h
  rw [← List.mem_reverse]
  exact mem_of_head?_eq h

theorem chain_append_of_le (l t : List Nat) (b : Nat)
    (hl : List.Chain' (fun x y => x ≤ y) l) (hle : ∀ p ∈ l, p ≤ b)
    (ht : List.Chain' (fun x y => x ≤ y) (b :: t)) :
    List.Chain' (fun x y => x ≤ y) (l ++ b :: t) := by
  rw [List.chain'_append]
  refine ⟨hl, ht, fun x hx y hy => ?_⟩
  simp at hy
  rw [← hy]
  exact hle x (mem_of_getLast?_eq hx)

theorem sepMap_mono {p q : Nat} (h : p ≤ q) :
    40 + p * 50 / 100 ≤ 40 + q * 50 / 100 :=
  Nat.add_le_add_left (Nat.div_le_div_right (Nat.mul_le_mul_right 50 h)) 40

theorem sepMap_ge (p : Nat) : 40 ≤ 40 + p * 50 / 100 := Nat.le_add_right 40 _

theorem sepMap_le90 {p : Nat} (h : p ≤ 100) : 40 + p * 50 / 100 ≤ 90 := by
  have h1 : p * 50 ≤ 5000 := by
    calc p * 50 ≤ 100 * 50 := Nat.mul_le_mul_right 50 h
    _ = 5000 := by norm_num
  have h2 : p * 50 / 100 ≤ 5000 / 100 := Nat.div_le_div_right h1
  omega

theorem chain_sepBlock {r : SubprocResult}
    (hch : List.Chain' (fun x y => x ≤ y) (scraped r)) :
    List.Chain' (fun x y => x ≤ y)
      (40 :: ((scraped r).map fun p => 40 + p * 50 / 100)) := by
  rw [List.chain'_cons']
  constructor
  · intro y hy
    rw [Option.mem_def] at hy
    rcases List.mem_map.mp (mem_of_head?_eq hy) with ⟨p, _, rfl⟩
    exact sepMap_ge p
  · rw [List.chain'_map]
    exact hch.imp fun a b hab => sepMap_mono hab

theorem sepBlock_le90 {r : SubprocResult}
    (hle : ∀ p ∈ scraped r, p ≤ 100) :
    ∀ q ∈ 40 :: ((scraped r).map fun p => 40 + p * 50 / 100), q ≤ 90 := by
  intro q hq
  rcases List.mem_cons.mp hq with hq | hq
  · omega
  · rcases List.mem_map.mp hq with ⟨p, hp, rfl⟩
    exact sepMap_le90 (hle p hp)

/-! ## C2 (amended): monotone scraping gives a monotone progress trace -/

theorem chain_pv_pipelineRest (j : Job) (env : Env) (st : MidState)
    (hch : List.Chain' (fun x y => x ≤ y) (scraped env.demucs))
    (hle : ∀ p ∈ scraped env.demucs, p ≤ 100)
    (hst : List.Chain' (fun x y => x ≤ y) (progressValues st.events))
    (hst40 : ∀ p ∈ progressValues st.events, p ≤ 40) :
    List.Chain' (fun x y => x ≤ y)
      (progressValues (pipelineRest j env st).events) := by
  unfold pipelineRest
  split
  · simpa [pv_append, pv_cons_done, pv_nil] using hst
  · split
    · simpa [pv_append, pv_cons_log, pv_cons_done, pv_nil,
        pv_subprocess_span0] using hst
    · split
      · simp only [pv_append, pv_cons_log, pv_cons_prog, pv_cons_done, pv_nil,
          pv_subprocess_span0, pv_subprocess_window 40 50 (by norm_num),
          List.append_assoc, List.append_nil, List.nil_append, List.cons_append]
        exact chain_append_of_le _ _ _ hst hst40 (chain_sepBlock hch)
      · split
        · split
          · simp only [pv_append, pv_cons_log, pv_cons_prog, pv_cons_done,
              pv_nil, pv_subprocess_span0,
              pv_subprocess_window 40 50 (by norm_num), pv_logMap,
              List.append_assoc, List.append_nil, List.nil_append,
              List.cons_append]
            refine chain_append_of_le _ _ _ hst hst40 ?_
            exact chain_append_of_le _ _ _ (chain_sepBlock hch)
              (sepBlock_le90 hle) (List.chain'_singleton _)
          · simp only [pv_append, pv_cons_log, pv_cons_prog, pv_cons_done,
              pv_nil, pv_subprocess_span0,
              pv_subprocess_window 40 50 (by norm_num), pv_logMap,
              List.append_assoc, List.append_nil, List.nil_append,
              List.cons_append]
            refine chain_append_of_le _ _ _ hst hst40 ?_
            refine chain_append_of_le _ _ _ (chain_sepBlock hch)
              (sepBlock_le90 hle) ?_
            norm_num [List.chain'_cons, List.chain'_singleton]
        · split
          · simp only [pv_append, pv_cons_log, pv_cons_prog, pv_cons_done,
              pv_nil, pv_subprocess_span0,
              pv_subprocess_window 40 50 (by norm_num),
              List.append_assoc, List.append_nil, List.nil_append,
              List.cons_append]
            refine chain_append_of_le _ _ _ hst hst40 ?_
            exact chain_append_of_le _ _ _ (chain_sepBlock hch)
              (sepBlock_le90 hle) (List.chain'_singleton _)
          · simp only [pv_append, pv_cons_log, pv_cons_prog, pv_cons_done,
              pv_nil, pv_subprocess_span0,
              pv_subprocess_window 40 50 (by norm_num),
              List.append_assoc, List.append_nil, List.nil_append,
              List.cons_append]
            refine chain_append_of_le _ _ _ hst hst40 ?_
            refine chain_append_of_le _ _ _ (chain_sepBlock hch)
              (sepBlock_le90 hle) ?_
            norm_num [List.chain'_cons, List.chain'_singleton]

/-- C2 (amended). Provided every percentage scraped from the separation
tool's diagnostic stream is at most 100 and the scraped sequence is itself
non-decreasing, the Progress events of the whole job (any outcome, local
file or URL) are non-decreasing. The restriction is forced by the code: the
scraped value is forwarded unclamped (see
`progress_regression_counterexample`). -/
theorem progress_nondecreasing (j : Job) (env : Env)
    (hch : List.Chain' (fun x y => x ≤ y) (scraped env.demucs))
    (hle : ∀ p ∈ scraped env.demucs, p ≤ 100) :
    List.Chain' (fun x y => x ≤ y)
      (progressValues (runJob j env).events) := by
  show List.Chain' _ (progressValues (tryBlock j env).events)
  simp only [tryBlock]
  split
  · split
    · split
      · simp [pv_append, pv_cons_log, pv_cons_done, pv_nil]
      · refine chain_pv_pipelineRest j env _ hch hle ?_ ?_ <;>
          simp [pv_append, pv_cons_log, pv_cons_prog, pv_nil,
            List.chain'_singleton]
    · refine chain_pv_pipelineRest j env _ hch hle ?_ ?_ <;>
        simp [pv_append, pv_cons_log, pv_cons_prog, pv_nil,
          List.chain'_singleton]
  · split
    · simp [pv_append, pv_cons_log, pv_cons_prog, pv_cons_done, pv_nil,
        List.chain'_singleton]
    · refine chain_pv_pipelineRest j env _ hch hle ?_ ?_ <;>
        simp [pv_append, pv_cons_log, pv_cons_prog, pv_nil,
          List.chain'_cons, List.chain'_singleton]

/-- Witness environment for the amended C2. -/
def envC2W : Env := { envW with demucs := ⟨["10%|\n", "55%|\n", "100%|\n"], [], 0⟩ }

/-- Witness for the amended C2 at a concrete monotone stream. -/
theorem progress_nondecreasing_witness :
    List.Chain' (fun x y => x ≤ y)
      (progressValues (runJob jobW envC2W).events) :=
  progress_nondecreasing jobW envC2W
    (by rw [(by decide : scraped envC2W.demucs = [10, 55, 100])]
        rw [List.chain'_cons, List.chain'_cons]
        refine ⟨by norm_num, by norm_num, List.chain'_singleton _⟩)
    (by intro p hp
        rw [(by decide : scraped envC2W.demucs = [10, 55, 100])] at hp
        simp at hp
        rcases hp with rfl | rfl | rfl <;> norm_num)

/-- Environment in which the separation tool's stream regresses from 90% to
10%. -/
def envR : Env := { envW with demucs := ⟨["90%|\n", "10%|\n"], [], 0⟩ }

/-- Counterexample to C2 as frozen: a diagnostic stream whose percentages
regress makes the worker emit Progress 85 followed by Progress 45. -/
theorem progress_regression_counterexample :
    ¬ List.Chain' (fun a b => a ≤ b)
        (progressValues (runJob jobW envR).events) := by
  intro h
  rw [(by decide :
    progressValues (runJob jobW envR).events = [10, 40, 85, 45, 90, 100])] at h
  rw [List.chain'_cons, List.chain'_cons, List.chain'_cons] at h
  exact absurd h.2.2.1 (by decide)

/-! ## C3 (amended): progress stays within 0..100 for bounded scrapes -/

theorem pv_le_pipelineRest (j : Job) (env : Env) (st : MidState)
    (hle : ∀ p ∈ scraped env.demucs, p ≤ 100)
    (hst : ∀ n ∈ progressValues st.events, n ≤ 100) :
    ∀ n ∈ progressValues (pipelineRest j env st).events, n ≤ 100 := by
  have hm : ∀ x ∈ (scraped env.demucs).map fun p => 40 + p * 50 / 100,
      x ≤ 100 := by
    intro x hx
    rcases List.mem_map.mp hx with ⟨p, hp, rfl⟩
    exact le_trans (sepMap_le90 (hle p hp)) (by norm_num)
  unfold pipelineRest
  split
  · simpa [pv_append, pv_cons_done, pv_nil, List.forall_mem_append] using hst
  · split
    · simpa [pv_append, pv_cons_log, pv_cons_done, pv_nil,
        pv_subprocess_span0, List.forall_mem_append] using hst
    · split
      · simp only [pv_append, pv_cons_log, pv_cons_prog, pv_cons_done,
          pv_nil, pv_subprocess_span0,
          pv_subprocess_window 40 50 (by norm_num),
          List.forall_mem_append, List.forall_mem_cons, List.mem_append,
          List.mem_cons, List.mem_map, List.append_assoc, List.append_nil,
          List.nil_append, List.cons_append, List.not_mem_nil, or_false,
          false_or]
        rintro n (hn | rfl | ⟨a, ha, rfl⟩)
        · exact hst n hn
        · norm_num
        · exact le_trans (sepMap_le90 (hle a ha)) (by norm_num)
      · split
        · split
          · simp only [pv_append, pv_cons_log, pv_cons_prog, pv_cons_done,
              pv_nil, pv_subprocess_span0,
              pv_subprocess_window 40 50 (by norm_num), pv_logMap,
              List.forall_mem_append, List.forall_mem_cons, List.mem_append,
              List.mem_cons, List.mem_map, List.append_assoc, List.append_nil,
              List.nil_append, List.cons_append, List.not_mem_nil, or_false,
              false_or]
            rintro n (hn | rfl | ⟨a, ha, rfl⟩ | rfl)
            · exact hst n hn
            · norm_num
            · exact le_trans (sepMap_le90 (hle a ha)) (by norm_num)
            · norm_num
          · simp only [pv_append, pv_cons_log, pv_cons_prog, pv_cons_done,
              pv_nil, pv_subprocess_span0,
              pv_subprocess_window 40 50 (by norm_num), pv_logMap,
              List.forall_mem_append, List.forall_mem_cons, List.mem_append,
              List.mem_cons, List.mem_map, List.append_assoc, List.append_nil,
              List.nil_append, List.cons_append, List.not_mem_nil, or_false,
              false_or]
            rintro n (hn | rfl | ⟨a, ha, rfl⟩ | rfl | rfl)
            · exact hst n hn
            · norm_num
            · exact le_trans (sepMap_le90 (hle a ha)) (by norm_num)
            · norm_num
            · norm_num
        · split
          · simp only [pv_append, pv_cons_log, pv_cons_prog, pv_cons_done,
              pv_nil, pv_subprocess_span0,
              pv_subprocess_window 40 50 (by norm_num), pv_logMap,
              List.forall_mem_append, List.forall_mem_cons, List.mem_append,
              List.mem_cons, List.mem_map, List.append_assoc, List.append_nil,
              List.nil_append, List.cons_append, List.not_mem_nil, or_false,
              false_or]
            rintro n (hn | rfl | ⟨a, ha, rfl⟩ | rfl)
            · exact hst n hn
            · norm_num
            · exact le_trans (sepMap_le90 (hle a ha)) (by norm_num)
            · norm_num
          · simp only [pv_append, pv_cons_log, pv_cons_prog, pv_cons_done,
              pv_nil, pv_subprocess_span0,
              pv_subprocess_window 40 50 (by norm_num), pv_logMap,
              List.forall_mem_append, List.forall_mem_cons, List.mem_append,
              List.mem_cons, List.mem_map, List.append_assoc, List.append_nil,
              List.nil_append, List.cons_append, List.not_mem_nil, or_false,
              false_or]
            rintro n (hn | rfl | ⟨a, ha, rfl⟩ | rfl | rfl)
            · exact hst n hn
            · norm_num
            · exact le_trans (sepMap_le90 (hle a ha)) (by norm_num)
            · norm_num
            · norm_num

/-- C3 (amended). Provided every percentage scraped from the separation
tool's stream is at most 100, every Progress event of the job carries a
value at most 100 (values are naturals, so at least 0 by construction).
Without the restriction the mapping can exceed 100 (see
`progress_overflow_counterexample`). -/
theorem progress_within_range (j : Job) (env : Env)
    (hle : ∀ p ∈ scraped env.demucs, p ≤ 100) :
    ∀ n ∈ progressValues (runJob j env).events, n ≤ 100 := by
  show ∀ n ∈ progressValues (tryBlock j env).events, n ≤ 100
  simp only [tryBlock]
  split
  · split
    · split
      · simp [pv_append, pv_cons_log, pv_cons_done, pv_nil]
      · refine pv_le_pipelineRest j env _ hle ?_
        simp [pv_append, pv_cons_log, pv_cons_prog, pv_nil,
          List.forall_mem_cons]
    · refine pv_le_pipelineRest j env _ hle ?_
      simp [pv_append, pv_cons_log, pv_cons_prog, pv_nil,
        List.forall_mem_cons]
  · split
    · simp [pv_append, pv_cons_log, pv_cons_prog, pv_cons_done, pv_nil,
        List.forall_mem_cons]
    · refine pv_le_pipelineRest j env _ hle ?_
      simp [pv_append, pv_cons_log, pv_cons_prog, pv_nil,
        List.forall_mem_cons]

/-- Witness for the amended C3: with a bounded stream, the progress value 67
(scraped 55% mapped through the window) is within range. -/
theorem progress_within_range_witness :
    (∀ p ∈ scraped envC2W.demucs, p ≤ 100) ∧
      67 ∈ progressValues (runJob jobW envC2W).events ∧ 67 ≤ 100 := by
  have hle : ∀ p ∈ scraped envC2W.demucs, p ≤ 100 := by
    intro p hp
    rw [(by decide : scraped envC2W.demucs = [10, 55, 100])] at hp
    simp at hp
    rcases hp with rfl | rfl | rfl <;> norm_num
  exact ⟨hle, by decide,
    progress_within_range jobW envC2W hle 67 (by decide)⟩

/-- Environment whose separation stream shows `999%`: the pattern
`(\d{1,3})%` scrapes 999. -/
def envO : Env := { envW with demucs := ⟨["999%|\n"], [], 0⟩ }

/-- Counterexample to C3 as frozen: the line `999%` is scraped as 999 and
mapped to 40 + 999*50/100 = 539, so a Progress event above 100 is emitted. -/
theorem progress_overflow_counterexample :
    Event.prog 539 ∈ (runJob jobW envO).events ∧ ¬(539 ≤ 100) := by
  decide

/-! ## C10: the original source file is never registered for deletion -/

theorem takeWhile_append_all {p : Char → Bool} {a b : List Char}
    (h : ∀ c ∈ a, p c = true) :
    (a ++ b).takeWhile p = a ++ b.takeWhile p := by
  induction a with
  | nil => simp
  | cons d ds ih =>
    rw [List.cons_append, List.takeWhile_cons, if_pos (h d (List.mem_cons_self _ _)),
      ih fun c hc => h c (List.mem_cons_of_mem _ hc), List.cons_append]

theorem pathNameL_append (d seg : List Char) (hseg : ∀ c ∈ seg, c ≠ '/') :
    pathNameL (d ++ '/' :: seg) = seg := by
  unfold pathNameL
  have hrev : (d ++ '/' :: seg).reverse = seg.reverse ++ '/' :: d.reverse := by
    rw [List.reverse_append, List.reverse_cons]
    simp [List.append_assoc]
  rw [hrev, takeWhile_append_all (fun c hc => by
    simp only [decide_eq_true_eq]
    exact hseg c (List.mem_reverse.mp hc))]
  rw [List.takeWhile_cons]
  simp

theorem pathStem_append_dotted (u v : List Char) (hu : u ≠ []) (hv : v ≠ [])
    (hvd : ∀ c ∈ v, c ≠ '.') : pathStem (u ++ '.' :: v) = u := by
  have hrev : (u ++ '.' :: v).reverse = v.reverse ++ '.' :: u.reverse := by
    rw [List.reverse_append, List.reverse_cons]
    simp [List.append_assoc]
  have htw : (u ++ '.' :: v).reverse.takeWhile (fun c => decide (c ≠ '.')) =
      v.reverse := by
    rw [hrev, takeWhile_append_all (fun c hc => by
      simp only [decide_eq_true_eq]
      exact hvd c (List.mem_reverse.mp hc))]
    rw [List.takeWhile_cons]
    simp
  have hlen : (u ++ '.' :: v).length = u.length + 1 + v.length := by
    simp
    omega
  have hidx : lastDotIdx (u ++ '.' :: v) = some u.length := by
    unfold lastDotIdx
    rw [htw]
    simp only [List.length_reverse]
    rw [hlen, if_neg (by
      have := List.length_pos.mpr hu
      omega)]
    have := List.length_pos.mpr hv
    congr 1
    omega
  have hcond : 0 < u.length ∧ u.length < (u ++ '.' :: v).length - 1 := by
    have h1 := List.length_pos.mpr hu
    have h2 := List.length_pos.mpr hv
    rw [hlen]
    omega
  unfold pathStem
  rw [hidx]
  simp only [if_pos hcond]
  exact List.take_left u ('.' :: v)

theorem chain'_noRun_all_tail (tail : List Char)
    (h : ∀ c ∈ tail, collapseChar c = false) :
    ∀ a : Char, List.Chain' NoRun (a :: tail) := by
  induction tail with
  | nil => intro a; simp
  | cons d ds ih =>
    intro a
    rw [List.chain'_cons]
    refine ⟨fun hh => ?_, ih (fun c hc => h c (List.mem_cons_of_mem _ hc)) d⟩
    rw [h d (List.mem_cons_self _ _)] at hh
    exact absurd hh.2 (by simp)

/-- The central fixed-point argument for C10: a sanitized title can never
equal the sanitization of itself followed by `_<bitrate>k`, because that
longer string is already in sanitized normal form (or, when the title is
empty, sanitizes to the nonempty `<bitrate>k`). -/
theorem titleFix_absurd (t : List Char) (br : Bitrate) (hT : SanNormal t)
    (he : t = sanitizeL (t ++ '_' :: (br.toStr.data ++ ['k']))) : False := by
  by_cases ht : t = []
  · subst ht
    simp only [List.nil_append] at he
    cases br <;> exact absurd he.symm (by decide)
  · have hrest_nc : ∀ c ∈ br.toStr.data ++ ['k'], collapseChar c = false := by
      cases br <;> decide
    have hnormal : SanNormal (t ++ '_' :: (br.toStr.data ++ ['k'])) := by
      refine ⟨?_, ?_, ?_, ?_, ?_⟩
      · intro c hc
        rcases List.mem_append.mp hc with hc | hc
        · exact hT.noBad c hc
        · have hall : ∀ x ∈ '_' :: (br.toStr.data ++ ['k']), badChar x = false := by
            cases br <;> decide
          exact hall c hc
      · intro c hc hcc
        rcases List.mem_append.mp hc with hc | hc
        · exact hT.onlyUnderscore c hc hcc
        · have hall : ∀ x ∈ '_' :: (br.toStr.data ++ ['k']),
              collapseChar x = true → x = '_' := by
            cases br <;> decide
          exact hall c hc hcc
      · rw [List.chain'_append]
        refine ⟨hT.chain, chain'_noRun_all_tail _ hrest_nc '_', ?_⟩
        intro x hx y hy
        simp at hy
        rw [← hy]
        intro hxy
        have hx' := hT.onlyUnderscore x (mem_of_getLast?_eq hx) hxy.1
        have := hT.lastOk x hx
        rw [hx'] at this
        exact absurd this (by decide)
      · intro c hc
        rw [List.head?_append] at hc
        rcases hhd : t.head? with _ | d
        · exact absurd (List.head?_eq_none_iff.mp hhd) ht
        · rw [hhd] at hc
          simp at hc
          rw [← hc]
          exact hT.headOk d hhd
      · intro c hc
        rw [List.getLast?_append_of_ne_nil _ (by simp)] at hc
        have hl : ('_' :: (br.toStr.data ++ ['k'])).getLast? = some 'k' := by
          cases br <;> rfl
        rw [Option.mem_def, hl] at hc
        rw [← Option.some.inj hc]
        decide
    have hfix := sanitizeL_fixed hnormal
    rw [hfix] at he
    have := congrArg List.length he
    simp at this

theorem cleanup_pipelineRest (j : Job) (env : Env) (st : MidState) :
    (pipelineRest j env st).cleanup = st.cleanup ∨
    (pipelineRest j env st).cleanup = st.cleanup ++
      [pathJoin env.tmpDir (st.title ++ "_" ++ j.bitrate.toStr ++ "k.mp3")] := by
  unfold pipelineRest
  split
  · exact Or.inl rfl
  · split
    · exact Or.inr rfl
    · split
      · exact Or.inr rfl
      · split
        · split
          · exact Or.inr rfl
          · exact Or.inr rfl
        · split
          · exact Or.inr rfl
          · exact Or.inr rfl

/-- The source path can never coincide with the transcoded temp file's
path: its name would have to be `<title>_<bitrate>k.mp3` with
`title = sanitize(<title>_<bitrate>k)`, which `titleFix_absurd` refutes. -/
theorem url_ne_mp3Temp (j : Job) (env : Env) :
    j.url ≠ pathJoin env.tmpDir
      (String.mk (sanitizeL (pathStem (pathName j.url).data)) ++ "_" ++
        j.bitrate.toStr ++ "k.mp3") := by
  intro he
  set T : List Char := sanitizeL (pathStem (pathName j.url).data) with hTdef
  have hsegdata : (String.mk T ++ "_" ++ j.bitrate.toStr ++ "k.mp3").data =
      T ++ '_' :: (j.bitrate.toStr.data ++ ['k', '.', 'm', 'p', '3']) := by
    cases j.bitrate <;>
      simp [String.data_append, List.append_assoc]
  have hslash : ∀ c ∈ T ++ '_' :: (j.bitrate.toStr.data ++ ['k', '.', 'm', 'p', '3']),
      c ≠ '/' := by
    intro c hc
    rcases List.mem_append.mp hc with hc | hc
    · intro hceq
      subst hceq
      rw [hTdef] at hc
      exact absurd ((sanitizeL_normal _).noBad _ hc) (by decide)
    · have hall : ∀ x ∈ '_' :: (j.bitrate.toStr.data ++ ['k', '.', 'm', 'p', '3']),
          x ≠ '/' := by
        cases j.bitrate <;> decide
      exact hall c hc
  have hname : (pathName j.url).data =
      T ++ '_' :: (j.bitrate.toStr.data ++ ['k', '.', 'm', 'p', '3']) := by
    rw [he]
    show (pathNameL (pathJoin env.tmpDir _).data) = _
    have hjdata : (pathJoin env.tmpDir
        (String.mk T ++ "_" ++ j.bitrate.toStr ++ "k.mp3")).data =
        env.tmpDir.data ++ '/' ::
          (T ++ '_' :: (j.bitrate.toStr.data ++ ['k', '.', 'm', 'p', '3'])) := by
      unfold pathJoin
      rw [String.data_append, String.data_append, hsegdata]
      simp [List.append_assoc]
    rw [hjdata, pathNameL_append _ _ hslash]
  have hstem : pathStem (pathName j.url).data =
      T ++ '_' :: (j.bitrate.toStr.data ++ ['k']) := by
    rw [hname]
    have harg : T ++ '_' :: (j.bitrate.toStr.data ++ ['k', '.', 'm', 'p', '3']) =
        (T ++ '_' :: (j.bitrate.toStr.data ++ ['k'])) ++ '.' :: ['m', 'p', '3'] := by
      simp [List.append_assoc]
    rw [harg]
    exact pathStem_append_dotted _ _ (by simp) (by simp) (by decide)
  have hfix : T = sanitizeL (T ++ '_' :: (j.bitrate.toStr.data ++ ['k'])) := by
    conv_lhs => rw [hTdef]
    rw [hstem]
  exact titleFix_absurd T j.bitrate (hTdef ▸ sanitizeL_normal _) hfix

/-- C10. For a local-file job, the user's original source path is never in
the cleanup registry handed to finalization — neither when a scratch copy
is made (only the copy is registered) nor when the source already sits at
the scratch path (nothing is registered for it) — so finalization never
deletes the original file, in every outcome. -/
theorem source_never_in_cleanup (j : Job) (env : Env) (hf : j.isFile = true) :
    j.url ∉ (runJob j env).cleanupList := by
  show j.url ∉ (tryBlock j env).cleanup
  simp only [tryBlock, hf, if_true]
  split
  · rename_i hne
    split
    · simp
    · intro hmem
      rcases cleanup_pipelineRest j env _ with hc | hc <;> rw [hc] at hmem <;>
        simp at hmem
      · exact hne hmem
      · rcases hmem with hmem | hmem
        · exact hne hmem
        · exact url_ne_mp3Temp j env hmem
  · intro hmem
    rcases cleanup_pipelineRest j env _ with hc | hc <;> rw [hc] at hmem <;>
      simp at hmem
    exact url_ne_mp3Temp j env hmem

/-- Witness for C10 at a concrete local-file job. -/
theorem source_never_in_cleanup_witness :
    jobW.isFile = true ∧ jobW.url ∉ (runJob jobW envW).cleanupList :=
  ⟨rfl, source_never_in_cleanup jobW envW rfl⟩

end YT2Stems
